import Mathlib

/-!
# Verification of baloo's pyweld `WeldObject` front-end

A shallow embedding of `src/baloo/weld/pyweld/weldobject.py`:

* the process-wide literal registry (`WeldObject._registry` / `_var_num`,
  `generate_input_name`, the literal branch of `update`),
* the dependency-graph flattener (`get_let_statements`),
* the program-text assembly (`to_weld_func`), and
* the evaluation pipeline (`evaluate`), with the external compiler/runtime
  (`cweld` bindings), the injected encoder/decoder and `str()` modelled as
  opaque parameters, exactly as the spec treats them (opaque collaborators).

Python's stable `sorted()` on strings (compared by code point) is modelled by
`List.insertionSort` with the code-point order on `String`; both are stable
sorts, so they agree on every input.  Python dicts are modelled as association
lists (unique keys); dict assignment is `assocSet`, dict lookup is `find?`.
-/

namespace Baloo

/-- The decimal digit string of a natural number (most significant first),
as produced by `Nat.toDigits 10`. -/
def digitList (n : Nat) : List Char :=
  if _h : n < 10 then [Nat.digitChar n]
  else digitList (n / 10) ++ [Nat.digitChar (n % 10)]
decreasing_by
  exact Nat.div_lt_self (by omega) (by omega)

/-! ## The expression-node graph (`WeldObject`)

A `WeldNode` carries the fields of a `WeldObject` that the claims touch:
`obj_id`, `weld_code`, `dependencies` (dict key → dependency node),
`context` (name → literal input) and `argtypes` (name → explicit type).
`Val` is the opaque type of Python literal values, `Ty` the opaque type of
Weld types.  Python's object references form a finite DAG; here a node
contains its dependency nodes, and sharing is expressed by equal `objId`
(the process-wide uniqueness invariant is the `Coherent` hypothesis). -/
inductive WeldNode (Val Ty : Type) : Type where
  | mk (objId : String) (weldCode : String)
       (dependencies : List (String × WeldNode Val Ty))
       (context : List (String × Val))
       (argtypes : List (String × Ty))

namespace WeldNode

variable {Val Ty CT Buf M R P DRes : Type}

def objId : WeldNode Val Ty → String | .mk i _ _ _ _ => i

def weldCode : WeldNode Val Ty → String | .mk _ c _ _ _ => c

def dependencies : WeldNode Val Ty → List (String × WeldNode Val Ty) | .mk _ _ d _ _ => d

def context : WeldNode Val Ty → List (String × Val) | .mk _ _ _ ctx _ => ctx

def argtypes : WeldNode Val Ty → List (String × Ty) | .mk _ _ _ _ a => a

end WeldNode

/-- Comparison of dict entries by key, the order used by
`sorted(d.keys())` when entries are subsequently looked up by key. -/
def keyLE {α : Type} (p q : String × α) : Prop := p.1 ≤ q.1

instance {α : Type} : DecidableRel (keyLE (α := α)) :=
  fun p q => inferInstanceAs (Decidable (p.1 ≤ q.1))

instance {α : Type} : IsTotal (String × α) keyLE := ⟨fun p q => le_total p.1 q.1⟩

instance {α : Type} : IsTrans (String × α) keyLE :=
  ⟨fun _ _ _ h₁ h₂ => le_trans h₁ h₂⟩

/-- Python string `<=` (code-point lexicographic), as used by `list.sort()`
on the rendered let statements. -/
def strLE (a b : String) : Prop := a ≤ b

instance : DecidableRel strLE := fun a b => inferInstanceAs (Decidable (a ≤ b))

instance : IsTotal String strLE := ⟨fun a b => le_total a b⟩

instance : IsTrans String strLE := ⟨fun _ _ _ h₁ h₂ => le_trans h₁ h₂⟩

namespace WeldNode

variable {Val Ty CT Buf M R P DRes : Type}

/-- `for key in sorted(cur_obj.dependencies.keys()): cur_obj.dependencies[key]`:
the dependency nodes in ascending key order. -/
def sortedDepNodes (n : WeldNode Val Ty) : List (WeldNode Val Ty) :=
  (List.insertionSort keyLE n.dependencies).map (·.2)

/-- `"let %s = (%s);" % (cur_obj_id, cur_obj.weld_code)` -/
def letStmt (n : WeldNode Val Ty) : String :=
  "let " ++ n.objId ++ " = (" ++ n.weldCode ++ ");"

/-- The dependency nodes of `n` (the values of its `dependencies` dict). -/
def depNodes (n : WeldNode Val Ty) : List (WeldNode Val Ty) :=
  n.dependencies.map (·.2)

/-- The worklist of `get_let_statements`.  The Lean queue is the Python list
reversed: `queue.pop()` (pop from the back) is popping the head here, and
appending the ascending-key dependency list at the back is prepending its
reverse.  Returns `(let_statements, visited)`. -/
def flattenLoop : List (WeldNode Val Ty) → List String → List String →
    List String × List String
  | [], visited, stmts => (stmts, visited)
  | cur :: rest, visited, stmts =>
    if cur.objId ∈ visited then
      flattenLoop rest visited stmts
    else
      flattenLoop ((sortedDepNodes cur).reverse ++ rest)
        (cur.objId :: visited) (letStmt cur :: stmts)
termination_by q _ _ => (q.map sizeOf).sum
decreasing_by
  · simp only [List.map_cons, List.sum_cons]
    have : 0 < sizeOf cur := by cases cur; simp
    omega
  · simp only [List.map_append, List.sum_append, List.map_cons, List.sum_cons,
      List.map_reverse, List.sum_reverse]
    have hlt : ((sortedDepNodes cur).map sizeOf).sum < sizeOf cur := by
      cases cur with
      | mk i c d ctx a =>
        have hperm : List.Perm (((List.insertionSort keyLE d).map (·.2)).map sizeOf)
            ((d.map (·.2)).map sizeOf) := ((List.perm_insertionSort keyLE d).map _).map _
        have hsum := hperm.sum_eq
        have hsnd : ∀ l : List (String × WeldNode Val Ty),
            ((l.map (·.2)).map sizeOf).sum < 1 + sizeOf l := by
          intro l
          induction l with
          | nil => simp
          | cons p t ih =>
            cases p with
            | mk x y => simp only [List.map_cons, List.sum_cons]; simp at ih ⊢; omega
        have hlt2 := hsnd d
        simp only [sortedDepNodes, dependencies]
        rw [hsum]
        simp only [WeldNode.mk.sizeOf_spec]
        omega
    omega

/-- `let_statements.sort()`: the collected statements in ascending
lexicographic order. -/
def sortedLetStatements (self : WeldNode Val Ty) : List String :=
  List.insertionSort strLE (flattenLoop [self] [] []).1

/-- `WeldObject.get_let_statements`: flatten the dependency graph, sort the
bindings, append the target's identity, and join with newlines. -/
def get_let_statements (self : WeldNode Val Ty) : String :=
  String.intercalate "\n" (sortedLetStatements self ++ [self.objId])

/-- The context entries in ascending name order: `sorted(self.context.keys())`
paired with each name's value `self.context[name]` (keys of a dict are
unique, so sorting the entries by key equals sorting the keys and looking
each one up). -/
def sortedCtxPairs (self : WeldNode Val Ty) : List (String × Val) :=
  List.insertionSort keyLE self.context

end WeldNode

/-- The injected encoder/decoder and the opaque `cweld` compiler/runtime
boundary, exactly the external interface of spec §6.  `CT` is the type of
ctypes classes, `Buf` of encoded native buffers, `M` of compiled modules,
`R` of runtime result handles, `P` of raw data pointers, `DRes` of decoded
host values. -/
structure WeldEnv (Val Ty CT Buf M R P DRes : Type) where
  encode : Val → Buf
  pyToWeldType : Val → Ty
  tyStr : Ty → String
  ctypeClass : Ty → CT
  compile : String → List (String × String) → M × Nat × String
  run : M → List (String × CT) → List (String × Sum Val Buf) →
    List (String × String) → R × Nat × String
  retData : R → P
  weldValueData : R → P
  readI64 : P → Int
  decode : P → Ty → DRes

namespace WeldNode

variable {Val Ty CT Buf M R P DRes : Type}

/-- The `"{0}: {1}"` parameter strings of the function header, in sorted
name order, each typed by `encoder.py_to_weld_type`. -/
def headerArgStrs (env : WeldEnv Val Ty CT Buf M R P DRes)
    (self : WeldNode Val Ty) : List String :=
  (sortedCtxPairs self).map (fun p => p.1 ++ ": " ++ env.tyStr (env.pyToWeldType p.2))

/-- `WeldObject.to_weld_func`:
`header + " " + self.get_let_statements() + "\n" + self.weld_code`. -/
def to_weld_func (env : WeldEnv Val Ty CT Buf M R P DRes)
    (self : WeldNode Val Ty) : String :=
  "|" ++ String.intercalate ", " (headerArgStrs env self) ++ "|"
    ++ " " ++ get_let_statements self ++ "\n" ++ self.weldCode

end WeldNode

/-- Observable calls made by `evaluate` into the injected encoder/decoder and
the external runtime, in program order. -/
inductive Event (Val : Type) : Type where
  | typeCall (v : Val)
  | encodeCall (v : Val)
  | compileCall
  | runCall
  | decodeCall
deriving DecidableEq

namespace WeldNode

variable {Val Ty CT Buf M R P DRes : Type}

/-- `self.argtypes[name]` lookup (`name in self.argtypes`). -/
def argFind (argtypes : List (String × Ty)) (name : String) : Option Ty :=
  (argtypes.find? (fun p => p.1 == name)).map (·.2)

/-- The encoding loop of `evaluate` over the sorted context entries: builds
the `argtypes` (ctype classes) and `encoded` lists.  A name with an explicit
`argtypes` entry uses `self.argtypes[name].ctype_class` and the raw stored
value (`Sum.inl`); otherwise the encoder is invoked:
`py_to_weld_type(value).ctype_class` and `encode(value)` (`Sum.inr`).
Also records the encoder invocations as events. -/
def encodePass (env : WeldEnv Val Ty CT Buf M R P DRes)
    (argtypes : List (String × Ty)) :
    List (String × Val) → List CT × List (Sum Val Buf) × List (Event Val)
  | [] => ([], [], [])
  | (name, v) :: rest =>
    let r := encodePass env argtypes rest
    match argFind argtypes name with
    | some t => (env.ctypeClass t :: r.1, Sum.inl v :: r.2.1, r.2.2)
    | none => (env.ctypeClass (env.pyToWeldType v) :: r.1,
               Sum.inr (env.encode v) :: r.2.1,
               Event.typeCall v :: Event.encodeCall v :: r.2.2)

/-- The compile-time configuration built from `passes`:
`conf.set("weld.optimization.passes", ",".join(passes).strip())` when the
joined, stripped pass list is nonempty. -/
def passesConf (passes : Option (List String)) : List (String × String) :=
  match passes with
  | none => []
  | some ps =>
    let s := (String.intercalate "," ps).trim
    if s = "" then [] else [("weld.optimization.passes", s)]

/-- The run-time configuration: threads, memory limit and the
experimental-transforms flag. -/
def runConf (numThreads : Nat) (applyExp : Bool) : List (String × String) :=
  [("weld.threads", Nat.repr numThreads),
   ("weld.memory.limit", "100000000000"),
   ("weld.optimization.applyExperimentalTransforms",
     if applyExp then "true" else "false")]

/-- The ctypes `Args` structure fields: `zip(names, argtypes)`. -/
def argsFields (env : WeldEnv Val Ty CT Buf M R P DRes)
    (self : WeldNode Val Ty) : List (String × CT) :=
  ((sortedCtxPairs self).map (·.1)).zip (encodePass env self.argtypes (sortedCtxPairs self)).1

/-- The packed call frame: `setattr(weld_args, name, value)` for
`zip(names, encoded)`. -/
def packedAssigns (env : WeldEnv Val Ty CT Buf M R P DRes)
    (self : WeldNode Val Ty) : List (String × Sum Val Buf) :=
  ((sortedCtxPairs self).map (·.1)).zip (encodePass env self.argtypes (sortedCtxPairs self)).2.1

/-- The encoder invocations made while assembling the function header:
`to_weld_func` calls `self.encoder.py_to_weld_type(self.context[name])` for
every name in `sorted(self.context.keys())` — including names with an
explicit `argtypes` entry — so evaluating a node begins with one
`py_to_weld_type` call per sorted context entry. -/
def headerTypeCalls (self : WeldNode Val Ty) : List (Event Val) :=
  (sortedCtxPairs self).map (fun p => Event.typeCall p.2)

/-- `WeldObject.evaluate` (the `verbose` timing prints are pure I/O and
omitted): assemble the program — whose header assembly already invokes the
encoder's `py_to_weld_type` on every sorted context value — then encode the
sorted arguments, compile, run, and decode (or read a raw `c_int64` when
`decode=False`).  Returns the result (`Except` for the two `ValueError`
raises) and the event trace. -/
def evaluate (env : WeldEnv Val Ty CT Buf M R P DRes) (self : WeldNode Val Ty)
    (restype : Ty) (decodeFlag : Bool) (passes : Option (List String))
    (numThreads : Nat) (applyExp : Bool) :
    Except String (Sum DRes Int) × List (Event Val) :=
  let func := to_weld_func env self
  let enc := encodePass env self.argtypes (sortedCtxPairs self)
  let cres := env.compile func (passesConf passes)
  if cres.2.1 ≠ 0 then
    (Except.error ("Could not compile function " ++ func ++ ": " ++ cres.2.2),
     headerTypeCalls self ++ enc.2.2 ++ [Event.compileCall])
  else
    let rres := env.run cres.1 (argsFields env self) (packedAssigns env self)
      (runConf numThreads applyExp)
    if rres.2.1 ≠ 0 then
      (Except.error ("Error while running function,\n" ++ func
          ++ "\n\nError message: " ++ rres.2.2),
       headerTypeCalls self ++ enc.2.2 ++ [Event.compileCall, Event.runCall])
    else
      if decodeFlag then
        (Except.ok (Sum.inl (env.decode (env.retData rres.1) restype)),
         headerTypeCalls self ++ enc.2.2 ++ [Event.compileCall, Event.runCall, Event.decodeCall])
      else
        (Except.ok (Sum.inr (env.readI64 (env.weldValueData rres.1))),
         headerTypeCalls self ++ enc.2.2 ++ [Event.compileCall, Event.runCall])

end WeldNode

/-- The process-wide class state: the name counter `_var_num` and the
registry dict mapping a literal's textual form to its assigned name. -/
structure RegistryState : Type where
  varNum : Nat
  registry : List (String × String)

/-- `WeldObject._registry[value_str]` lookup. -/
def regLookup (reg : List (String × String)) (key : String) : Option String :=
  (reg.find? (fun p => p.1 == key)).map (·.2)

/-- `WeldObject.generate_input_name`: allocate `"_inp%d" % _var_num`,
bump the counter, and record the mapping. -/
def generate_input_name (g : RegistryState) (value_str : String) :
    String × RegistryState :=
  let name := "_inp" ++ Nat.repr g.varNum
  (name, ⟨g.varNum + 1, (value_str, name) :: g.registry⟩)

/-- The registry interaction of `update`'s literal branch: reuse the
registered name for `value_str`, or generate a fresh one. -/
def internGlobals (g : RegistryState) (value_str : String) :
    String × RegistryState :=
  match regLookup g.registry value_str with
  | some n => (n, g)
  | none => generate_input_name g value_str

/-- Dict assignment `d[k] = v`: replace the value at `k`, or append. -/
def assocSet {α : Type} : List (String × α) → String → α → List (String × α)
  | [], k, v => [(k, v)]
  | (k', v') :: rest, k, v =>
    if k' == k then (k', v) :: rest else (k', v') :: assocSet rest k v

namespace WeldNode

variable {Val Ty CT Buf M R P DRes : Type}

def setContext : WeldNode Val Ty → List (String × Val) → WeldNode Val Ty
  | .mk i c d _ a, ctx => .mk i c d ctx a

def setArgtypes : WeldNode Val Ty → List (String × Ty) → WeldNode Val Ty
  | .mk i c d ctx _, a => .mk i c d ctx a

end WeldNode

/-- The result of `update` on a plain literal: the returned name, the new
class-level state, and the mutated node. -/
structure UpdateResult (Val Ty : Type) : Type where
  name : String
  globals : RegistryState
  self : WeldNode Val Ty

/-- The plain-literal branch of `WeldObject.update(value, tys, override)`:
`value_str = str(value)` (the canonicalization `strOf` is a parameter, as the
spec treats it); the name is interned process-wide; `self.context[name] =
value`; and `self.argtypes[name] = tys` only when `tys is not None and not
override`. -/
def update_literal {Val Ty : Type} (strOf : Val → String) (g : RegistryState)
    (self : WeldNode Val Ty) (value : Val) (tys : Option Ty) (override : Bool) :
    UpdateResult Val Ty :=
  let value_str := strOf value
  let ng := internGlobals g value_str
  let self₁ := self.setContext (assocSet self.context ng.1 value)
  let self₂ := match tys with
    | some t => if override then self₁
                else self₁.setArgtypes (assocSet self₁.argtypes ng.1 t)
    | none => self₁
  ⟨ng.1, ng.2, self₂⟩

/-- The registry state at process start. -/
def registryStart : RegistryState := ⟨0, []⟩

/-- The class-level state evolves only through `update`'s literal branch
(interning some textual form); `RegEvolves g g'` says `g'` arises from `g`
by any number of interleaved interning operations. -/
inductive RegEvolves : RegistryState → RegistryState → Prop where
  | refl (g : RegistryState) : RegEvolves g g
  | step {g g' : RegistryState} (s : String) :
      RegEvolves g g' → RegEvolves g (internGlobals g' s).2

namespace WeldNode

variable {Val Ty CT Buf M R P DRes : Type}

/-- `Reaches a b`: `b` is in the transitive dependency closure of `a`
(including `a` itself). -/
inductive Reaches : WeldNode Val Ty → WeldNode Val Ty → Prop where
  | refl (n : WeldNode Val Ty) : Reaches n n
  | tail {a b c : WeldNode Val Ty} :
      Reaches a b → c ∈ depNodes b → Reaches a c

/-- The process-wide identity-uniqueness invariant, restricted to the part of
the graph a flattening can see: reachable nodes with the same `obj_id` are
the same object. -/
def Coherent (root : WeldNode Val Ty) : Prop :=
  ∀ m n, Reaches root m → Reaches root n → m.objId = n.objId → m = n

end WeldNode

/-- Invariant of the class-level registry state: every registered name is
`"_inp%d"` for some counter value below `_var_num`, and both the textual
forms (keys) and the names (values) are pairwise distinct. -/
structure RegInv (g : RegistryState) : Prop where
  bounded : ∀ p ∈ g.registry, ∃ k, k < g.varNum ∧ p.2 = "_inp" ++ Nat.repr k
  keysNodup : (g.registry.map Prod.fst).Nodup
  valsNodup : (g.registry.map Prod.snd).Nodup

namespace WeldNode

variable {Val Ty CT Buf M R P DRes : Type}

/-- Per-name ctype selection of the encoding loop. -/
def ctFor (env : WeldEnv Val Ty CT Buf M R P DRes) (argtypes : List (String × Ty))
    (p : String × Val) : CT :=
  match argFind argtypes p.1 with
  | some t => env.ctypeClass t
  | none => env.ctypeClass (env.pyToWeldType p.2)

/-- Per-name encoded value of the encoding loop. -/
def encFor (env : WeldEnv Val Ty CT Buf M R P DRes) (argtypes : List (String × Ty))
    (p : String × Val) : Sum Val Buf :=
  match argFind argtypes p.1 with
  | some _ => Sum.inl p.2
  | none => Sum.inr (env.encode p.2)

end WeldNode


/-! ## Concrete instances used by witnesses and counterexamples -/

/-- A leaf node with identity `obj101` and code `1`. -/
def exB : WeldNode Nat String := .mk "obj101" "1" [] [] []

/-- A node with identity `obj100` whose code references its dependency
`exB` (identity `obj101`). -/
def exA : WeldNode Nat String := .mk "obj100" "codeA" [("d", exB)] [] []

/-- A leaf node with identity `obj100`. -/
def exW1 : WeldNode Nat String := .mk "obj100" "v1" [] [] []

/-- A node `obj101` depending on `exW1` — the common case where the
dependency's statement sorts first — with one literal input. -/
def exW2 : WeldNode Nat String := .mk "obj101" "v2" [("d", exW1)] [("a", 5)] []

/-- A node whose single context entry carries an explicit `argtypes` entry. -/
def exArgNode : WeldNode Nat String :=
  .mk "obj200" "c0" [] [("a", 5)] [("a", "declared")]

/-- A concrete environment over small types: Weld types and buffers are
strings, module/result/pointer handles are units, decoded results are
strings.  The compiler and runtime return the given status codes and
diagnostics. -/
def envWith (ccode : Nat) (cmsg : String) (rcode : Nat) (rmsg : String) :
    WeldEnv Nat String String String Unit Unit Unit String where
  encode v := "enc" ++ Nat.repr v
  pyToWeldType _ := "i64"
  tyStr t := t
  ctypeClass t := "ct_" ++ t
  compile _ _ := ((), ccode, cmsg)
  run _ _ _ _ := ((), rcode, rmsg)
  retData _ := ()
  weldValueData _ := ()
  readI64 _ := 42
  decode _ t := "dec_" ++ t

/-- Environment whose compile and run both succeed. -/
def envOk : WeldEnv Nat String String String Unit Unit Unit String :=
  envWith 0 "" 0 ""

/-- Environment whose compile fails with a diagnostic. -/
def envCompileFail : WeldEnv Nat String String String Unit Unit Unit String :=
  envWith 1 "syntax error" 0 ""

/-- Environment whose compile succeeds and run fails with a diagnostic. -/
def envRunFail : WeldEnv Nat String String String Unit Unit Unit String :=
  envWith 0 "" 1 "out of memory"

/-! ## Lemmas and theorems -/


theorem digitList_lt {n : Nat} (h : n < 10) : digitList n = [Nat.digitChar n] := by
  rw [digitList, dif_pos h]

theorem digitList_ge {n : Nat} (h : ¬ n < 10) :
    digitList n = digitList (n / 10) ++ [Nat.digitChar (n % 10)] := by
  conv_lhs => rw [digitList]
  rw [dif_neg h]

theorem digitList_ne_nil (n : Nat) : digitList n ≠ [] := by
  by_cases h : n < 10
  · rw [digitList_lt h]; simp
  · rw [digitList_ge h]; simp

theorem toDigitsCore_eq_digitList :
    ∀ (fuel n : Nat) (ds : List Char), n < fuel →
      Nat.toDigitsCore 10 fuel n ds = digitList n ++ ds := by
  intro fuel
  induction fuel with
  | zero => intro n ds h; omega
  | succ f ih =>
    intro n ds h
    by_cases h10 : n < 10
    · have hdiv : n / 10 = 0 := Nat.div_eq_of_lt h10
      have hmod : n % 10 = n := Nat.mod_eq_of_lt h10
      simp only [Nat.toDigitsCore, hdiv, if_pos, hmod]
      rw [digitList, dif_pos h10]
      simp
    · have hdiv : n / 10 ≠ 0 := by omega
      have hlt : n / 10 < f := by
        have h1 : n / 10 < n := Nat.div_lt_self (by omega) (by omega)
        omega
      simp only [Nat.toDigitsCore, hdiv, if_neg]
      rw [ih (n / 10) _ hlt]
      rw [digitList_ge h10]
      simp

theorem toDigits_eq_digitList (n : Nat) : Nat.toDigits 10 n = digitList n := by
  have := toDigitsCore_eq_digitList (n + 1) n [] (by omega)
  simpa [Nat.toDigits] using this

theorem digitChar_inj_lt :
    ∀ a, a < 10 → ∀ b, b < 10 → Nat.digitChar a = Nat.digitChar b → a = b := by
  decide

theorem digitList_inj : ∀ m n : Nat, digitList m = digitList n → m = n := by
  intro m
  induction m using Nat.strong_induction_on with
  | _ m ih =>
    intro n h
    by_cases hm : m < 10 <;> by_cases hn : n < 10
    · rw [digitList_lt hm, digitList_lt hn] at h
      exact digitChar_inj_lt m hm n hn (by injection h)
    · rw [digitList_lt hm, digitList_ge hn] at h
      have hlen := congrArg List.length h
      have hne := digitList_ne_nil (n / 10)
      simp only [List.length_singleton, List.length_append] at hlen
      have : (digitList (n / 10)).length = 0 := by omega
      exact absurd (List.length_eq_zero.mp this) hne
    · rw [digitList_ge hm, digitList_lt hn] at h
      have hlen := congrArg List.length h
      have hne := digitList_ne_nil (m / 10)
      simp only [List.length_singleton, List.length_append] at hlen
      have : (digitList (m / 10)).length = 0 := by omega
      exact absurd (List.length_eq_zero.mp this) hne
    · rw [digitList_ge hm, digitList_ge hn] at h
      have hlen : ([Nat.digitChar (m % 10)] : List Char).length
          = ([Nat.digitChar (n % 10)] : List Char).length := by simp
      obtain ⟨h1, h2⟩ := List.append_inj' h hlen
      have hdiv : m / 10 = n / 10 :=
        ih (m / 10) (Nat.div_lt_self (by omega) (by omega)) (n / 10) h1
      have hmod : m % 10 = n % 10 :=
        digitChar_inj_lt (m % 10) (Nat.mod_lt _ (by omega)) (n % 10)
          (Nat.mod_lt _ (by omega)) (by injection h2)
      omega

theorem natRepr_inj {m n : Nat} (h : Nat.repr m = Nat.repr n) : m = n := by
  apply digitList_inj
  rw [← toDigits_eq_digitList, ← toDigits_eq_digitList]
  have : (Nat.toDigits 10 m).asString.data = (Nat.toDigits 10 n).asString.data :=
    congrArg String.data h
  simpa [List.asString] using this

theorem string_append_left_cancel {s t u : String} (h : s ++ t = s ++ u) : t = u := by
  have hd : (s ++ t).data = (s ++ u).data := congrArg String.data h
  simp only [String.data_append] at hd
  exact String.ext (List.append_cancel_left hd)

theorem inpName_inj {a b : Nat} (h : "_inp" ++ Nat.repr a = "_inp" ++ Nat.repr b) :
    a = b :=
  natRepr_inj (string_append_left_cancel h)

namespace WeldNode

variable {Val Ty CT Buf M R P DRes : Type}

theorem reaches_trans {a b c : WeldNode Val Ty}
    (h₁ : Reaches a b) (h₂ : Reaches b c) : Reaches a c := by
  induction h₂ with
  | refl => exact h₁
  | tail _ hmem ih => exact ih.tail hmem

theorem Reaches.dep {a b : WeldNode Val Ty} (h : b ∈ depNodes a) :
    Reaches a b := (Reaches.refl a).tail h

theorem mem_sortedDepNodes {n x : WeldNode Val Ty} :
    x ∈ sortedDepNodes n ↔ x ∈ depNodes n := by
  unfold sortedDepNodes depNodes
  constructor
  · intro h
    exact ((List.perm_insertionSort keyLE n.dependencies).map (·.2)).mem_iff.mp h
  · intro h
    exact ((List.perm_insertionSort keyLE n.dependencies).map (·.2)).mem_iff.mpr h

/-- Already-visited ids stay visited. -/
theorem flattenLoop_visited_mono (q : List (WeldNode Val Ty)) (v s : List String) :
    ∀ x ∈ v, x ∈ (flattenLoop q v s).2 := by
  induction q, v, s using flattenLoop.induct with
  | case1 v s => intro x hx; rw [flattenLoop]; exact hx
  | case2 cur rest v s hmem ih =>
    intro x hx
    rw [flattenLoop, if_pos hmem]
    exact ih x hx
  | case3 cur rest v s hmem ih =>
    intro x hx
    rw [flattenLoop, if_neg hmem]
    exact ih x (List.mem_cons_of_mem _ hx)

/-- Every queued node's id ends up visited. -/
theorem flattenLoop_queue_visited (q : List (WeldNode Val Ty)) (v s : List String) :
    ∀ n ∈ q, n.objId ∈ (flattenLoop q v s).2 := by
  induction q, v, s using flattenLoop.induct with
  | case1 v s => intro n hn; simp at hn
  | case2 cur rest v s hmem ih =>
    intro n hn
    rw [flattenLoop, if_pos hmem]
    rcases List.mem_cons.mp hn with h | h
    · subst h; exact flattenLoop_visited_mono rest v s _ hmem
    · exact ih n h
  | case3 cur rest v s hmem ih =>
    intro n hn
    rw [flattenLoop, if_neg hmem]
    rcases List.mem_cons.mp hn with h | h
    · subst h
      exact flattenLoop_visited_mono _ _ _ _ (List.mem_cons_self _ _)
    · exact ih n (List.mem_append_right _ h)

/-- The main worklist invariant: the loop appends, in front of the incoming
accumulators, the let statement and id of a list `vl` of newly visited
nodes — pairwise distinct by id, disjoint from the incoming visited set,
each reachable from some queued node, and with all their dependencies'
ids visited on exit. -/
theorem flattenLoop_spec (q : List (WeldNode Val Ty)) (v s : List String) :
    ∃ vl : List (WeldNode Val Ty),
      (flattenLoop q v s).1 = vl.map letStmt ++ s ∧
      (flattenLoop q v s).2 = vl.map objId ++ v ∧
      (∀ n ∈ vl, n.objId ∉ v) ∧
      (vl.map objId).Nodup ∧
      (∀ n ∈ vl, ∃ m ∈ q, Reaches m n) ∧
      (∀ n ∈ vl, ∀ d ∈ depNodes n, d.objId ∈ (flattenLoop q v s).2) := by
  induction q, v, s using flattenLoop.induct with
  | case1 v s =>
    refine ⟨[], by simp [flattenLoop], by simp [flattenLoop], ?_, ?_, ?_, ?_⟩ <;> simp
  | case2 cur rest v s hmem ih =>
    obtain ⟨vl, h1, h2, h3, h4, h5, h6⟩ := ih
    rw [flattenLoop, if_pos hmem]
    exact ⟨vl, h1, h2, h3, h4,
      fun n hn => (h5 n hn).imp (fun m hm => ⟨List.mem_cons_of_mem _ hm.1, hm.2⟩),
      h6⟩
  | case3 cur rest v s hmem ih =>
    obtain ⟨vl, h1, h2, h3, h4, h5, h6⟩ := ih
    rw [flattenLoop, if_neg hmem]
    refine ⟨vl ++ [cur], ?_, ?_, ?_, ?_, ?_, ?_⟩
    · rw [h1]; simp
    · rw [h2]; simp
    · intro n hn
      rcases List.mem_append.mp hn with h | h
      · intro hv
        exact h3 n h (List.mem_cons_of_mem _ hv)
      · rcases List.mem_singleton.mp h with rfl
        exact hmem
    · rw [List.map_append]
      apply List.Nodup.append h4 (by simp)
      intro x hx hy
      rcases List.mem_singleton.mp (by simpa using hy) with rfl
      obtain ⟨n, hn, heq⟩ := List.mem_map.mp hx
      apply h3 n hn
      rw [heq]
      exact List.mem_cons_self _ _
    · intro n hn
      rcases List.mem_append.mp hn with h | h
      · obtain ⟨m, hm, hr⟩ := h5 n h
        rcases List.mem_append.mp hm with hq | hq
        · have hdep : m ∈ depNodes cur :=
            mem_sortedDepNodes.mp (List.mem_reverse.mp hq)
          exact ⟨cur, List.mem_cons_self _ _, reaches_trans (Reaches.dep hdep) hr⟩
        · exact ⟨m, List.mem_cons_of_mem _ hq, hr⟩
      · rcases List.mem_singleton.mp h with rfl
        exact ⟨_, List.mem_cons_self _ _, Reaches.refl _⟩
    · intro n hn d hd
      rcases List.mem_append.mp hn with h | h
      · exact h6 n h d hd
      · rcases List.mem_singleton.mp h with rfl
        apply flattenLoop_queue_visited
        exact List.mem_append_left _ (List.mem_reverse.mpr (mem_sortedDepNodes.mpr hd))

/-- Flattening from the target: the collected statements are exactly one
`letStmt` per visited node, the visited nodes have pairwise distinct ids,
and (under the identity-uniqueness invariant) they are exactly the nodes
reachable from the target. -/
theorem flatten_root_spec (root : WeldNode Val Ty) (hco : Coherent root) :
    ∃ vl : List (WeldNode Val Ty),
      (flattenLoop [root] [] []).1 = vl.map letStmt ∧
      (flattenLoop [root] [] []).2 = vl.map objId ∧
      (vl.map objId).Nodup ∧
      (∀ n, n ∈ vl ↔ Reaches root n) := by
  obtain ⟨vl, h1, h2, _h3, h4, h5, h6⟩ := flattenLoop_spec [root] [] []
  have hsound : ∀ n ∈ vl, Reaches root n := by
    intro n hn
    obtain ⟨m, hm, hr⟩ := h5 n hn
    rcases List.mem_singleton.mp hm with rfl
    exact hr
  have hmemid : ∀ x : WeldNode Val Ty, Reaches root x →
      x.objId ∈ (flattenLoop [root] [] []).2 → x ∈ vl := by
    intro x hrx hid
    rw [h2, List.append_nil] at hid
    obtain ⟨y, hy, hyid⟩ := List.mem_map.mp hid
    have : y = x := hco y x (hsound y hy) hrx hyid
    exact this ▸ hy
  have hcomplete : ∀ n, Reaches root n → n ∈ vl := by
    intro n hr
    induction hr with
    | refl =>
      exact hmemid root (Reaches.refl root)
        (flattenLoop_queue_visited [root] [] [] root (List.mem_singleton.mpr rfl))
    | tail hab hmem ih =>
      rename_i b c
      exact hmemid c (hab.tail hmem) (h6 b ih c hmem)
  refine ⟨vl, by rw [h1, List.append_nil], by rw [h2, List.append_nil], h4, ?_⟩
  intro n
  exact ⟨hsound n, hcomplete n⟩

/-- In a `≤`-sorted list, a strictly smaller string occurs strictly earlier
(first occurrences compared). -/
theorem sorted_indexOf_lt {l : List String} (hs : l.Sorted strLE) {a b : String}
    (ha : a ∈ l) (hb : b ∈ l) (hab : a < b) : l.indexOf a < l.indexOf b := by
  by_contra hcon
  push_neg at hcon
  have hia : l.indexOf a < l.length := List.indexOf_lt_length.mpr ha
  have hib : l.indexOf b < l.length := List.indexOf_lt_length.mpr hb
  rcases lt_or_eq_of_le hcon with hlt | heq
  · have hr : strLE (l.get ⟨l.indexOf b, hib⟩) (l.get ⟨l.indexOf a, hia⟩) :=
      hs.rel_get_of_lt hlt
    simp only [List.get_eq_getElem, List.getElem_indexOf] at hr
    exact absurd hab (not_lt_of_le hr)
  · have : b = a := (List.indexOf_inj hb ha).mp heq
    exact absurd (this ▸ hab) (lt_irrefl a)

theorem sortedLetStatements_sorted (self : WeldNode Val Ty) :
    (sortedLetStatements self).Sorted strLE :=
  List.sorted_insertionSort strLE _

theorem sortedLetStatements_perm (self : WeldNode Val Ty) :
    (sortedLetStatements self).Perm (flattenLoop [self] [] []).1 :=
  List.perm_insertionSort strLE _

/-- Two lists of keyed entries that are permutations of each other, both
key-sorted, with pairwise-distinct keys, are equal (this is why a stable
sort of a dict's entries is determined by the dict's contents alone). -/
theorem eq_of_perm_sorted_keys {α : Type} :
    ∀ {l₁ l₂ : List (String × α)}, l₁.Perm l₂ →
      l₁.Sorted keyLE → l₂.Sorted keyLE → (l₁.map Prod.fst).Nodup → l₁ = l₂ := by
  intro l₁
  induction l₁ with
  | nil =>
    intro l₂ hp _ _ _
    exact (hp.nil_eq).symm ▸ rfl
  | cons p t₁ ih =>
    intro l₂ hp hs₁ hs₂ hn
    cases l₂ with
    | nil => exact absurd hp.symm.nil_eq (by simp)
    | cons q t₂ =>
      have hpq : p = q := by
        by_contra hne
        have hpmem : p ∈ q :: t₂ := hp.mem_iff.mp (List.mem_cons_self _ _)
        have hqmem : q ∈ p :: t₁ := hp.mem_iff.mpr (List.mem_cons_self _ _)
        have hpt₂ : p ∈ t₂ := by
          rcases List.mem_cons.mp hpmem with h | h
          · exact absurd h hne
          · exact h
        have hqt₁ : q ∈ t₁ := by
          rcases List.mem_cons.mp hqmem with h | h
          · exact absurd h.symm hne
          · exact h
        have h₁ : keyLE p q := ((List.sorted_cons.mp hs₁).1) q hqt₁
        have h₂ : keyLE q p := ((List.sorted_cons.mp hs₂).1) p hpt₂
        have hkey : p.1 = q.1 := le_antisymm h₁ h₂
        have : p.1 ∉ t₁.map Prod.fst := (List.nodup_cons.mp hn).1
        exact this (hkey ▸ List.mem_map_of_mem Prod.fst hqt₁)
      subst hpq
      have ht : t₁.Perm t₂ := hp.cons_inv
      have := ih ht (List.sorted_cons.mp hs₁).2 (List.sorted_cons.mp hs₂).2
        (List.nodup_cons.mp hn).2
      rw [this]

/-- Sorting keyed entries is invariant under permutation when keys are
pairwise distinct. -/
theorem insertionSort_perm_eq {α : Type} {l₁ l₂ : List (String × α)}
    (hp : l₁.Perm l₂) (hn : (l₁.map Prod.fst).Nodup) :
    List.insertionSort keyLE l₁ = List.insertionSort keyLE l₂ := by
  apply eq_of_perm_sorted_keys
  · exact (List.perm_insertionSort keyLE l₁).trans
      (hp.trans (List.perm_insertionSort keyLE l₂).symm)
  · exact List.sorted_insertionSort keyLE l₁
  · exact List.sorted_insertionSort keyLE l₂
  · exact ((List.perm_insertionSort keyLE l₁).map Prod.fst).nodup_iff.mpr hn

end WeldNode

theorem regLookup_mem {reg : List (String × String)} {k n : String}
    (h : regLookup reg k = some n) : ∃ p ∈ reg, p.1 = k ∧ p.2 = n := by
  unfold regLookup at h
  cases hf : reg.find? (fun p => p.1 == k) with
  | none => rw [hf] at h; simp at h
  | some p =>
    rw [hf] at h
    simp at h
    refine ⟨p, List.mem_of_find?_eq_some hf, ?_, h⟩
    have := List.find?_some hf
    simpa using this

theorem regLookup_none {reg : List (String × String)} {k : String}
    (h : regLookup reg k = none) : ∀ p ∈ reg, p.1 ≠ k := by
  unfold regLookup at h
  cases hf : reg.find? (fun p => p.1 == k) with
  | none =>
    intro p hp
    have := List.find?_eq_none.mp hf p hp
    simpa using this
  | some p => rw [hf] at h; simp at h

theorem regInv_start : RegInv registryStart := by
  constructor <;> simp [registryStart]

theorem regInv_intern (g : RegistryState) (s : String) (h : RegInv g) :
    RegInv (internGlobals g s).2 := by
  unfold internGlobals
  cases hl : regLookup g.registry s with
  | some n => exact h
  | none =>
    simp only [generate_input_name]
    constructor
    · intro p hp
      rcases List.mem_cons.mp hp with rfl | hp
      · refine ⟨g.varNum, ?_, rfl⟩
        show g.varNum < g.varNum + 1
        omega
      · obtain ⟨k, hk, hkeq⟩ := h.bounded p hp
        refine ⟨k, ?_, hkeq⟩
        show k < g.varNum + 1
        omega
    · simp only [List.map_cons, List.nodup_cons]
      refine ⟨?_, h.keysNodup⟩
      intro hmem
      obtain ⟨p, hp, hpeq⟩ := List.mem_map.mp hmem
      exact regLookup_none hl p hp hpeq
    · simp only [List.map_cons, List.nodup_cons]
      refine ⟨?_, h.valsNodup⟩
      intro hmem
      obtain ⟨p, hp, hpeq⟩ := List.mem_map.mp hmem
      obtain ⟨k, hk, hkeq⟩ := h.bounded p hp
      rw [hkeq] at hpeq
      exact absurd (inpName_inj hpeq) (by omega)

theorem regEvolves_trans {g₁ g₂ g₃ : RegistryState}
    (h₁ : RegEvolves g₁ g₂) (h₂ : RegEvolves g₂ g₃) : RegEvolves g₁ g₃ := by
  induction h₂ with
  | refl => exact h₁
  | step s _ ih => exact RegEvolves.step s ih

theorem regInv_evolves {g g' : RegistryState} (h : RegEvolves g g')
    (hg : RegInv g) : RegInv g' := by
  induction h with
  | refl => exact hg
  | step s _ ih => exact regInv_intern _ s ih

/-- Registered names are never re-assigned: the registry only grows with
fresh textual forms. -/
theorem regLookup_stable {g g' : RegistryState} (h : RegEvolves g g')
    {k n : String} (hk : regLookup g.registry k = some n) :
    regLookup g'.registry k = some n := by
  induction h with
  | refl => exact hk
  | step s hev ih =>
    rename_i g''
    unfold internGlobals
    cases hl : regLookup g''.registry s with
    | some m => exact ih
    | none =>
      simp only [generate_input_name]
      have hne : s ≠ k := by
        intro rfl_eq
        rw [rfl_eq] at hl
        rw [hl] at ih
        exact absurd ih (by simp)
      unfold regLookup
      rw [List.find?_cons_of_neg _ (by simpa using hne)]
      exact ih

theorem intern_lookup_self (g : RegistryState) (s : String) :
    regLookup (internGlobals g s).2.registry s = some (internGlobals g s).1 := by
  unfold internGlobals
  cases hl : regLookup g.registry s with
  | some n => exact hl
  | none =>
    simp only [generate_input_name]
    unfold regLookup
    rw [List.find?_cons_of_pos _ (by simp)]
    rfl

/-- Interning across any interval of the process lifetime: two interned
textual forms receive the same name iff the forms are equal. -/
theorem intern_names_iff (g g₂ : RegistryState) (s₁ s₂ : String)
    (hg : RegEvolves registryStart g)
    (h₂ : RegEvolves (internGlobals g s₁).2 g₂) :
    ((internGlobals g s₁).1 = (internGlobals g₂ s₂).1) ↔ s₁ = s₂ := by
  have hstable : regLookup g₂.registry s₁ = some (internGlobals g s₁).1 :=
    regLookup_stable h₂ (intern_lookup_self g s₁)
  have hinv₂ : RegInv g₂ :=
    regInv_evolves (regEvolves_trans (RegEvolves.step s₁ hg) h₂) regInv_start
  constructor
  · intro heq
    by_contra hne
    cases hl : regLookup g₂.registry s₂ with
    | some n₂ =>
      have hn₂ : (internGlobals g₂ s₂).1 = n₂ := by
        unfold internGlobals
        rw [hl]
      rw [hn₂] at heq
      obtain ⟨p₁, hp₁, hp₁k, hp₁v⟩ := regLookup_mem hstable
      obtain ⟨p₂, hp₂, hp₂k, hp₂v⟩ := regLookup_mem hl
      have hveq : p₁.2 = p₂.2 := by rw [hp₁v, hp₂v]; exact heq
      have : p₁ = p₂ :=
        List.inj_on_of_nodup_map hinv₂.valsNodup hp₁ hp₂ hveq
      exact hne (by rw [← hp₁k, ← hp₂k, this])
    | none =>
      have hn₂ : (internGlobals g₂ s₂).1 = "_inp" ++ Nat.repr g₂.varNum := by
        unfold internGlobals
        rw [hl]
        rfl
      rw [hn₂] at heq
      obtain ⟨p₁, hp₁, hp₁k, hp₁v⟩ := regLookup_mem hstable
      obtain ⟨k, hk, hkeq⟩ := hinv₂.bounded p₁ hp₁
      rw [hkeq] at hp₁v
      rw [← hp₁v] at heq
      exact absurd (inpName_inj heq) (by omega)
  · intro heq
    subst heq
    conv_rhs => rw [internGlobals, hstable]

namespace WeldNode

variable {Val Ty CT Buf M R P DRes : Type}

theorem encodePass_cts (env : WeldEnv Val Ty CT Buf M R P DRes)
    (argtypes : List (String × Ty)) (pairs : List (String × Val)) :
    (encodePass env argtypes pairs).1 = pairs.map (ctFor env argtypes) := by
  induction pairs with
  | nil => rfl
  | cons p rest ih =>
    cases p with
    | mk name v =>
      simp only [encodePass, List.map_cons, ctFor]
      cases argFind argtypes name <;> simp [ih]

theorem encodePass_encoded (env : WeldEnv Val Ty CT Buf M R P DRes)
    (argtypes : List (String × Ty)) (pairs : List (String × Val)) :
    (encodePass env argtypes pairs).2.1 = pairs.map (encFor env argtypes) := by
  induction pairs with
  | nil => rfl
  | cons p rest ih =>
    cases p with
    | mk name v =>
      simp only [encodePass, List.map_cons, encFor]
      cases argFind argtypes name <;> simp [ih]

theorem encodePass_events (env : WeldEnv Val Ty CT Buf M R P DRes)
    (argtypes : List (String × Ty)) (pairs : List (String × Val)) :
    (encodePass env argtypes pairs).2.2 = pairs.flatMap (fun p =>
      match argFind argtypes p.1 with
      | some _ => []
      | none => [Event.typeCall p.2, Event.encodeCall p.2]) := by
  induction pairs with
  | nil => rfl
  | cons p rest ih =>
    cases p with
    | mk name v =>
      simp only [encodePass, List.flatMap_cons]
      cases argFind argtypes name <;> simp [ih]

theorem encodePass_events_shape (env : WeldEnv Val Ty CT Buf M R P DRes)
    (argtypes : List (String × Ty)) (pairs : List (String × Val)) :
    ∀ e ∈ (encodePass env argtypes pairs).2.2,
      ∃ v, e = Event.typeCall v ∨ e = Event.encodeCall v := by
  intro e he
  rw [encodePass_events] at he
  obtain ⟨p, _hp, hmem⟩ := List.mem_flatMap.mp he
  revert hmem
  cases argFind argtypes p.1 <;> simp
  · intro h
    rcases h with h | h <;> exact ⟨p.2, by simp [h]⟩

theorem encoderEvents_shape (env : WeldEnv Val Ty CT Buf M R P DRes)
    (self : WeldNode Val Ty) :
    ∀ e ∈ headerTypeCalls self
        ++ (encodePass env self.argtypes (sortedCtxPairs self)).2.2,
      ∃ v, e = Event.typeCall v ∨ e = Event.encodeCall v := by
  intro e he
  rcases List.mem_append.mp he with h | h
  · obtain ⟨p, _, hp⟩ := List.mem_map.mp h
    exact ⟨p.2, Or.inl hp.symm⟩
  · exact encodePass_events_shape env _ _ _ h

end WeldNode

/-! ## Claim C1 -/

namespace WeldNode

variable {Val Ty : Type}

theorem reaches_exW2_cases : ∀ x, Reaches exW2 x → x = exW2 ∨ x = exW1 := by
  intro x h
  induction h with
  | refl => exact Or.inl rfl
  | tail hab hmem ih =>
    rcases ih with rfl | rfl
    · right
      simpa [exW2, depNodes, dependencies, exW1] using hmem
    · exfalso
      simp [exW1, depNodes, dependencies] at hmem

theorem coherent_exW2 : Coherent exW2 := by
  intro m n hm hn heq
  rcases reaches_exW2_cases m hm with rfl | rfl <;>
    rcases reaches_exW2_cases n hn with rfl | rfl <;>
      first
        | rfl
        | (exfalso; revert heq; simp [exW2, exW1, objId])

/-- C1 (amended): flattening the target produces exactly one
`let <identity> = (<code>);` binding per node reachable from the target
(including the target, each node visited at most once), and the final
`sort()` orders the bindings lexicographically by statement text; hence for
an edge where node A has node B among its dependencies, B's binding appears
strictly before A's whenever B's statement text is lexicographically smaller
than A's.  (The claim's unconditional edge ordering fails: see the
counterexample.) -/
theorem C1_acyclic_flattening (root : WeldNode Val Ty) (hco : Coherent root) :
    ∃ vl : List (WeldNode Val Ty),
      (∀ n, n ∈ vl ↔ Reaches root n) ∧
      (vl.map objId).Nodup ∧
      (sortedLetStatements root).Perm (vl.map letStmt) ∧
      (sortedLetStatements root).Sorted strLE ∧
      (∀ a b, Reaches root a → b ∈ depNodes a → letStmt b < letStmt a →
        (sortedLetStatements root).indexOf (letStmt b)
          < (sortedLetStatements root).indexOf (letStmt a)) ∧
      get_let_statements root
        = String.intercalate "\n" (sortedLetStatements root ++ [root.objId]) := by
  obtain ⟨vl, h1, _h2, h3, h4⟩ := flatten_root_spec root hco
  have hperm : (sortedLetStatements root).Perm (vl.map letStmt) := by
    rw [← h1]
    exact sortedLetStatements_perm root
  refine ⟨vl, h4, h3, hperm, sortedLetStatements_sorted root, ?_, rfl⟩
  intro a b hra hdep hlt
  have hb : letStmt b ∈ sortedLetStatements root :=
    hperm.mem_iff.mpr (List.mem_map_of_mem _ ((h4 b).mpr (hra.tail hdep)))
  have ha : letStmt a ∈ sortedLetStatements root :=
    hperm.mem_iff.mpr (List.mem_map_of_mem _ ((h4 a).mpr hra))
  exact sorted_indexOf_lt (sortedLetStatements_sorted root) hb ha hlt

/-- Witness for C1 at the two-node graph `exW2 → exW1`. -/
theorem C1_acyclic_flattening_witness :
    ∃ vl : List (WeldNode Nat String),
      (∀ n, n ∈ vl ↔ Reaches exW2 n) ∧
      (vl.map objId).Nodup ∧
      (sortedLetStatements exW2).Perm (vl.map letStmt) ∧
      (sortedLetStatements exW2).Sorted strLE ∧
      (∀ a b, Reaches exW2 a → b ∈ depNodes a → letStmt b < letStmt a →
        (sortedLetStatements exW2).indexOf (letStmt b)
          < (sortedLetStatements exW2).indexOf (letStmt a)) ∧
      get_let_statements exW2
        = String.intercalate "\n" (sortedLetStatements exW2 ++ [exW2.objId]) :=
  C1_acyclic_flattening exW2 coherent_exW2

/-- C1 counterexample: `exA` (identity `obj100`) has `exB` (identity
`obj101`) among its dependencies, yet `exB`'s binding appears strictly
after `exA`'s in the flattened output, because the final sort is
lexicographic on statement text. -/
theorem sortedLetStatements_exA_eq :
    sortedLetStatements exA = ["let obj100 = (codeA);", "let obj101 = (1);"] := by
  simp +decide [sortedLetStatements, flattenLoop, exA, exB, sortedDepNodes,
    letStmt, objId, weldCode, dependencies, List.insertionSort,
    List.orderedInsert, strLE]

theorem C1_acyclic_flattening_cex :
    exB ∈ depNodes exA ∧
    sortedLetStatements exA = ["let obj100 = (codeA);", "let obj101 = (1);"] ∧
    get_let_statements exA = "let obj100 = (codeA);\nlet obj101 = (1);\nobj100" ∧
    ¬ ((sortedLetStatements exA).indexOf (letStmt exB)
        < (sortedLetStatements exA).indexOf (letStmt exA)) := by
  have hsort := sortedLetStatements_exA_eq
  refine ⟨?_, hsort, ?_, ?_⟩
  · simp [exA, exB, depNodes, dependencies]
  · unfold get_let_statements
    rw [hsort]
    rfl
  · rw [hsort]
    simp +decide [letStmt, exA, exB, objId, weldCode, List.indexOf, List.findIdx,
      List.findIdx.go]

end WeldNode

/-! ## Claims C5 and C8 -/

namespace WeldNode

variable {Val Ty CT Buf M R P DRes : Type}

/-- C5 (amended): for every node, the program text built by `to_weld_func`
is `|name1: type1, ...| <sorted let bindings> <newline> <target identity>
<newline> <target code>`: the header, the ordered let-bindings (one per
reachable node), the trailing reference to the target's identity — and
then, contrary to the claim, a newline and the target's raw code fragment
follow the trailing reference. -/
theorem C5_program_text (env : WeldEnv Val Ty CT Buf M R P DRes)
    (root : WeldNode Val Ty) (hco : Coherent root) :
    ∃ vl : List (WeldNode Val Ty),
      (∀ n, n ∈ vl ↔ Reaches root n) ∧
      (vl.map objId).Nodup ∧
      (sortedLetStatements root).Perm (vl.map letStmt) ∧
      (sortedLetStatements root).Sorted strLE ∧
      to_weld_func env root
        = "|" ++ String.intercalate ", " (headerArgStrs env root) ++ "|" ++ " "
          ++ String.intercalate "\n" (sortedLetStatements root ++ [root.objId])
          ++ "\n" ++ root.weldCode := by
  obtain ⟨vl, h1, _h2, h3, h4⟩ := flatten_root_spec root hco
  have hperm : (sortedLetStatements root).Perm (vl.map letStmt) := by
    rw [← h1]
    exact sortedLetStatements_perm root
  exact ⟨vl, h4, h3, hperm, sortedLetStatements_sorted root, rfl⟩

/-- Witness for C5 at the two-node graph `exW2 → exW1`. -/
theorem C5_program_text_witness :
    ∃ vl : List (WeldNode Nat String),
      (∀ n, n ∈ vl ↔ Reaches exW2 n) ∧
      (vl.map objId).Nodup ∧
      (sortedLetStatements exW2).Perm (vl.map letStmt) ∧
      (sortedLetStatements exW2).Sorted strLE ∧
      to_weld_func envOk exW2
        = "|" ++ String.intercalate ", " (headerArgStrs envOk exW2) ++ "|" ++ " "
          ++ String.intercalate "\n" (sortedLetStatements exW2 ++ [exW2.objId])
          ++ "\n" ++ exW2.weldCode :=
  C5_program_text envOk exW2 coherent_exW2

/-- C5 counterexample: on `exA` the assembled text does not stop at the
trailing reference — `to_weld_func` appends a newline and the target's raw
code after it, so the text differs from `header + " " +
get_let_statements`. -/
theorem C5_program_text_cex :
    to_weld_func envOk exA
      = "|| let obj100 = (codeA);\nlet obj101 = (1);\nobj100\ncodeA" ∧
    to_weld_func envOk exA
      ≠ "|" ++ String.intercalate ", " (headerArgStrs envOk exA) ++ "|" ++ " "
        ++ get_let_statements exA := by
  have htext : to_weld_func envOk exA
      = "|| let obj100 = (codeA);\nlet obj101 = (1);\nobj100\ncodeA" := by
    unfold to_weld_func get_let_statements
    rw [sortedLetStatements_exA_eq]
    rfl
  have hbody : "|" ++ String.intercalate ", " (headerArgStrs envOk exA) ++ "|" ++ " "
      ++ get_let_statements exA
      = "|| let obj100 = (codeA);\nlet obj101 = (1);\nobj100" := by
    unfold get_let_statements
    rw [sortedLetStatements_exA_eq]
    rfl
  refine ⟨htext, ?_⟩
  rw [htext, hbody]
  decide

/-- C8 (confirmed, strengthened): flattening and header assembly are
deterministic — the output text is a pure function of the graph, and is
even invariant under permuting the construction order of the root's
dependency and context dicts (their keys are sorted before use). -/
theorem C8_determinism (env : WeldEnv Val Ty CT Buf M R P DRes)
    (i c : String) (d₁ d₂ : List (String × WeldNode Val Ty))
    (ctx₁ ctx₂ : List (String × Val)) (a : List (String × Ty))
    (hd : d₁.Perm d₂) (hdn : (d₁.map Prod.fst).Nodup)
    (hc : ctx₁.Perm ctx₂) (hcn : (ctx₁.map Prod.fst).Nodup) :
    get_let_statements (WeldNode.mk i c d₁ ctx₁ a)
      = get_let_statements (WeldNode.mk i c d₂ ctx₂ a) ∧
    to_weld_func env (WeldNode.mk i c d₁ ctx₁ a)
      = to_weld_func env (WeldNode.mk i c d₂ ctx₂ a) := by
  have hdeps : sortedDepNodes (WeldNode.mk i c d₁ ctx₁ a)
      = sortedDepNodes (WeldNode.mk i c d₂ ctx₂ a) := by
    unfold sortedDepNodes
    simp only [dependencies]
    rw [insertionSort_perm_eq hd hdn]
  have hloop : flattenLoop [WeldNode.mk i c d₁ ctx₁ a] [] []
      = flattenLoop [WeldNode.mk i c d₂ ctx₂ a] [] [] := by
    conv_lhs => rw [flattenLoop]
    conv_rhs => rw [flattenLoop]
    simp only [objId, letStmt, weldCode, hdeps]
  have hlets : get_let_statements (WeldNode.mk i c d₁ ctx₁ a)
      = get_let_statements (WeldNode.mk i c d₂ ctx₂ a) := by
    unfold get_let_statements sortedLetStatements
    rw [hloop]
    simp only [objId]
  have hctx : sortedCtxPairs (WeldNode.mk i c d₁ ctx₁ a)
      = sortedCtxPairs (WeldNode.mk i c d₂ ctx₂ a) := by
    unfold sortedCtxPairs
    simp only [context]
    rw [insertionSort_perm_eq hc hcn]
  refine ⟨hlets, ?_⟩
  unfold to_weld_func headerArgStrs
  rw [hctx, hlets]
  simp only [weldCode]

/-- Witness for C8: permuting a two-entry dependency dict and a two-entry
context dict of the root leaves the generated text unchanged. -/
theorem C8_determinism_witness :
    get_let_statements (WeldNode.mk "obj102" "cc" [("x", exW1), ("y", exB)]
        [("a", 5), ("b", 7)] [])
      = get_let_statements (WeldNode.mk "obj102" "cc" [("y", exB), ("x", exW1)]
        [("b", 7), ("a", 5)] []) ∧
    to_weld_func envOk (WeldNode.mk "obj102" "cc" [("x", exW1), ("y", exB)]
        [("a", 5), ("b", 7)] [])
      = to_weld_func envOk (WeldNode.mk "obj102" "cc" [("y", exB), ("x", exW1)]
        [("b", 7), ("a", 5)] []) :=
  C8_determinism envOk "obj102" "cc" _ _ _ _ []
    (List.Perm.swap _ _ _) (by simp) (List.Perm.swap _ _ _) (by simp)

end WeldNode

/-! ## Claims C2 and C4 -/

namespace WeldNode

variable {Val Ty CT Buf M R P DRes : Type}

/-- C2 (amended): in `evaluate`, for every name in the node's aggregated
context taken in sorted name order, the injected Encoder's
`py_to_weld_type` is invoked on the stored value while assembling the
function header; then, in the encoding loop, the Encoder is invoked again
(`py_to_weld_type` for the ctype, `encode` for the value) exactly when the
name has no explicit `argtypes` entry — a name with an `argtypes` entry is
passed through unencoded with its declared ctype, and its value is never
passed to `encode`.  The trace of `evaluate` is exactly these header
invocations, then the encoding-loop invocations in sorted name order, then
compiler/runtime/decoder events only. -/
theorem C2_argument_encoding (env : WeldEnv Val Ty CT Buf M R P DRes)
    (self : WeldNode Val Ty) (restype : Ty) (decodeFlag : Bool)
    (passes : Option (List String)) (numThreads : Nat) (applyExp : Bool) :
    headerTypeCalls self
      = (sortedCtxPairs self).map (fun p => Event.typeCall p.2) ∧
    (encodePass env self.argtypes (sortedCtxPairs self)).2.2
      = (sortedCtxPairs self).flatMap (fun p =>
          match argFind self.argtypes p.1 with
          | some _ => []
          | none => [Event.typeCall p.2, Event.encodeCall p.2]) ∧
    (encodePass env self.argtypes (sortedCtxPairs self)).2.1
      = (sortedCtxPairs self).map (encFor env self.argtypes) ∧
    (encodePass env self.argtypes (sortedCtxPairs self)).1
      = (sortedCtxPairs self).map (ctFor env self.argtypes) ∧
    (∃ tail : List (Event Val),
      (evaluate env self restype decodeFlag passes numThreads applyExp).2
        = headerTypeCalls self
          ++ (encodePass env self.argtypes (sortedCtxPairs self)).2.2 ++ tail ∧
      ∀ e ∈ tail, ∀ v : Val, e ≠ Event.typeCall v ∧ e ≠ Event.encodeCall v) := by
  refine ⟨rfl, encodePass_events env _ _, encodePass_encoded env _ _,
    encodePass_cts env _ _, ?_⟩
  unfold evaluate
  dsimp only
  split
  · exact ⟨[Event.compileCall], rfl, by intro e he v; revert he; simp; rintro rfl; simp⟩
  · split
    · exact ⟨[Event.compileCall, Event.runCall], rfl, by
        intro e he v
        revert he
        simp
        rintro (rfl | rfl) <;> simp⟩
    · split
      · exact ⟨[Event.compileCall, Event.runCall, Event.decodeCall], rfl, by
          intro e he v
          revert he
          simp
          rintro (rfl | rfl | rfl) <;> simp⟩
      · exact ⟨[Event.compileCall, Event.runCall], rfl, by
          intro e he v
          revert he
          simp
          rintro (rfl | rfl) <;> simp⟩

/-- C2 counterexample: on `exArgNode`, whose single context entry `"a"`
(value `5`) has an explicit `argtypes` entry, `evaluate` invokes
`py_to_weld_type` on `5` once — during header assembly — but never invokes
`encode` on it: the claim's "encode to produce the native-layout argument"
fails.  The packed value is the raw stored `5` and the ctype is the
declared one, not the inferred one. -/
theorem C2_argument_encoding_cex :
    sortedCtxPairs exArgNode = [("a", 5)] ∧
    (evaluate envOk exArgNode "i64" true none 1 false).2
      = [Event.typeCall 5, Event.compileCall, Event.runCall, Event.decodeCall] ∧
    Event.encodeCall 5 ∉ (evaluate envOk exArgNode "i64" true none 1 false).2 ∧
    (encodePass envOk exArgNode.argtypes (sortedCtxPairs exArgNode)).2.1
      = [Sum.inl 5] ∧
    (encodePass envOk exArgNode.argtypes (sortedCtxPairs exArgNode)).1
      = ["ct_declared"] := by
  have hpairs : sortedCtxPairs exArgNode = [("a", (5 : Nat))] := by
    simp [sortedCtxPairs, exArgNode, context, List.insertionSort, List.orderedInsert]
  have htrace : (evaluate envOk exArgNode "i64" true none 1 false).2
      = [Event.typeCall 5, Event.compileCall, Event.runCall, Event.decodeCall] := by
    unfold evaluate headerTypeCalls
    rw [hpairs]
    simp [envOk, envWith, encodePass, argFind, exArgNode, argtypes]
  refine ⟨hpairs, htrace, ?_, ?_, ?_⟩
  · rw [htrace]; simp
  · rw [hpairs]; simp [encodePass, argFind, exArgNode, argtypes, envOk, envWith]
  · rw [hpairs]; simp [encodePass, argFind, exArgNode, argtypes, envOk, envWith]

/-- C4: the left-to-right order of `name: type` parameters in the header
assembled by `to_weld_func` is exactly the field order of the ctypes `Args`
structure and the order in which `evaluate` packs the encoded values: the
header strings, the struct fields, and the packed assignments are all the
image, componentwise, of the same sorted context entries. -/
theorem C4_signature_alignment (env : WeldEnv Val Ty CT Buf M R P DRes)
    (self : WeldNode Val Ty) :
    (argsFields env self).map Prod.fst = (sortedCtxPairs self).map Prod.fst ∧
    (packedAssigns env self).map Prod.fst = (sortedCtxPairs self).map Prod.fst ∧
    argsFields env self
      = (sortedCtxPairs self).map (fun p => (p.1, ctFor env self.argtypes p)) ∧
    packedAssigns env self
      = (sortedCtxPairs self).map (fun p => (p.1, encFor env self.argtypes p)) ∧
    headerArgStrs env self
      = (sortedCtxPairs self).map (fun p =>
          p.1 ++ ": " ++ env.tyStr (env.pyToWeldType p.2)) := by
  have hf : argsFields env self
      = (sortedCtxPairs self).map (fun p => (p.1, ctFor env self.argtypes p)) := by
    unfold argsFields
    rw [encodePass_cts]
    exact List.zip_map' (fun p => p.1) (ctFor env self.argtypes) (sortedCtxPairs self)
  have hp : packedAssigns env self
      = (sortedCtxPairs self).map (fun p => (p.1, encFor env self.argtypes p)) := by
    unfold packedAssigns
    rw [encodePass_encoded]
    exact List.zip_map' (fun p => p.1) (encFor env self.argtypes) (sortedCtxPairs self)
  refine ⟨?_, ?_, hf, hp, rfl⟩
  · rw [hf, List.map_map]
    rfl
  · rw [hp, List.map_map]
    rfl

end WeldNode

/-! ## Claims C6, C7, C9 -/

namespace WeldNode

variable {Val Ty CT Buf M R P DRes : Type}

/-- C6: if compilation of the assembled program reports a nonzero status,
`evaluate` raises an error carrying the compiler's diagnostic message and
the full program text, and no execution attempt occurs (the runtime's run
entry point is never invoked, nor the decoder). -/
theorem C6_compile_error (env : WeldEnv Val Ty CT Buf M R P DRes)
    (self : WeldNode Val Ty) (restype : Ty) (decodeFlag : Bool)
    (passes : Option (List String)) (numThreads : Nat) (applyExp : Bool)
    (h : (env.compile (to_weld_func env self) (passesConf passes)).2.1 ≠ 0) :
    (evaluate env self restype decodeFlag passes numThreads applyExp).1
      = Except.error ("Could not compile function " ++ to_weld_func env self
          ++ ": " ++ (env.compile (to_weld_func env self) (passesConf passes)).2.2) ∧
    Event.runCall ∉ (evaluate env self restype decodeFlag passes numThreads applyExp).2 ∧
    Event.decodeCall ∉ (evaluate env self restype decodeFlag passes numThreads applyExp).2 := by
  unfold evaluate
  dsimp only
  rw [if_pos h]
  refine ⟨rfl, ?_, ?_⟩
  · intro hmem
    rcases List.mem_append.mp hmem with h1 | h1
    · obtain ⟨v, hv⟩ := encoderEvents_shape env self _ h1
      rcases hv with hv | hv <;> simp at hv
    · simp at h1
  · intro hmem
    rcases List.mem_append.mp hmem with h1 | h1
    · obtain ⟨v, hv⟩ := encoderEvents_shape env self _ h1
      rcases hv with hv | hv <;> simp at hv
    · simp at h1

/-- Witness for C6: a compiler returning status 1 with diagnostic
`"syntax error"`. -/
theorem C6_compile_error_witness :
    (evaluate envCompileFail exW2 "i64" true none 1 false).1
      = Except.error ("Could not compile function "
          ++ to_weld_func envCompileFail exW2 ++ ": "
          ++ (envCompileFail.compile (to_weld_func envCompileFail exW2)
                (passesConf none)).2.2) ∧
    Event.runCall ∉ (evaluate envCompileFail exW2 "i64" true none 1 false).2 ∧
    Event.decodeCall ∉ (evaluate envCompileFail exW2 "i64" true none 1 false).2 :=
  C6_compile_error envCompileFail exW2 "i64" true none 1 false (by decide)

/-- C7: if compilation succeeds but execution reports a nonzero status,
`evaluate` raises an error carrying the runtime's diagnostic message and
the program text; the returned value is that error (no partial result) and
the decoder is never invoked. -/
theorem C7_runtime_error (env : WeldEnv Val Ty CT Buf M R P DRes)
    (self : WeldNode Val Ty) (restype : Ty) (decodeFlag : Bool)
    (passes : Option (List String)) (numThreads : Nat) (applyExp : Bool)
    (h1 : (env.compile (to_weld_func env self) (passesConf passes)).2.1 = 0)
    (h2 : (env.run (env.compile (to_weld_func env self) (passesConf passes)).1
        (argsFields env self) (packedAssigns env self)
        (runConf numThreads applyExp)).2.1 ≠ 0) :
    (evaluate env self restype decodeFlag passes numThreads applyExp).1
      = Except.error ("Error while running function,\n" ++ to_weld_func env self
          ++ "\n\nError message: "
          ++ (env.run (env.compile (to_weld_func env self) (passesConf passes)).1
                (argsFields env self) (packedAssigns env self)
                (runConf numThreads applyExp)).2.2) ∧
    Event.decodeCall ∉ (evaluate env self restype decodeFlag passes numThreads applyExp).2 := by
  unfold evaluate
  dsimp only
  rw [if_neg (by simp [h1]), if_pos h2]
  refine ⟨rfl, ?_⟩
  intro hmem
  rcases List.mem_append.mp hmem with hm | hm
  · obtain ⟨v, hv⟩ := encoderEvents_shape env self _ hm
    rcases hv with hv | hv <;> simp at hv
  · simp at hm

/-- Witness for C7: a runtime returning status 1 with diagnostic
`"out of memory"` after a successful compile. -/
theorem C7_runtime_error_witness :
    (evaluate envRunFail exW2 "i64" true none 1 false).1
      = Except.error ("Error while running function,\n"
          ++ to_weld_func envRunFail exW2
          ++ "\n\nError message: "
          ++ (envRunFail.run (envRunFail.compile (to_weld_func envRunFail exW2)
                (passesConf none)).1
                (argsFields envRunFail exW2) (packedAssigns envRunFail exW2)
                (runConf 1 false)).2.2) ∧
    Event.decodeCall ∉ (evaluate envRunFail exW2 "i64" true none 1 false).2 :=
  C7_runtime_error envRunFail exW2 "i64" true none 1 false (by decide) (by decide)

/-- C9: when `evaluate` is called with `decode=False` and both compilation
and execution succeed, the Decoder is never invoked and the result is the
64-bit integer read from the raw result buffer. -/
theorem C9_no_decode (env : WeldEnv Val Ty CT Buf M R P DRes)
    (self : WeldNode Val Ty) (restype : Ty)
    (passes : Option (List String)) (numThreads : Nat) (applyExp : Bool)
    (h1 : (env.compile (to_weld_func env self) (passesConf passes)).2.1 = 0)
    (h2 : (env.run (env.compile (to_weld_func env self) (passesConf passes)).1
        (argsFields env self) (packedAssigns env self)
        (runConf numThreads applyExp)).2.1 = 0) :
    (evaluate env self restype false passes numThreads applyExp).1
      = Except.ok (Sum.inr (env.readI64 (env.weldValueData
          (env.run (env.compile (to_weld_func env self) (passesConf passes)).1
            (argsFields env self) (packedAssigns env self)
            (runConf numThreads applyExp)).1))) ∧
    Event.decodeCall ∉ (evaluate env self restype false passes numThreads applyExp).2 := by
  unfold evaluate
  dsimp only
  rw [if_neg (by simp [h1]), if_neg (by simp [h2])]
  rw [if_neg (by simp)]
  refine ⟨rfl, ?_⟩
  intro hmem
  rcases List.mem_append.mp hmem with hm | hm
  · obtain ⟨v, hv⟩ := encoderEvents_shape env self _ hm
    rcases hv with hv | hv <;> simp at hv
  · simp at hm

/-- Witness for C9: with the always-succeeding environment and
`decode=False` the result is the raw 64-bit read (`42` here) and no
decoder call appears in the trace. -/
theorem C9_no_decode_witness :
    (evaluate envOk exW2 "i64" false none 1 false).1
      = Except.ok (Sum.inr (envOk.readI64 (envOk.weldValueData
          (envOk.run (envOk.compile (to_weld_func envOk exW2) (passesConf none)).1
            (argsFields envOk exW2) (packedAssigns envOk exW2)
            (runConf 1 false)).1))) ∧
    Event.decodeCall ∉ (evaluate envOk exW2 "i64" false none 1 false).2 :=
  C9_no_decode envOk exW2 "i64" none 1 false (by decide) (by decide)

end WeldNode

/-! ## Claims C3 and C10 -/

theorem argtypes_setContext {Val Ty : Type} (s : WeldNode Val Ty)
    (ctx : List (String × Val)) :
    (s.setContext ctx).argtypes = s.argtypes := by
  cases s
  rfl

theorem argtypes_setArgtypes {Val Ty : Type} (s : WeldNode Val Ty)
    (a : List (String × Ty)) :
    (s.setArgtypes a).argtypes = a := by
  cases s
  rfl

/-- C3: for any two registrations of plain literal values — in the same
node or different nodes, with any interleaved interning activity between
them over the process lifetime — the returned symbolic names are equal iff
the values' canonical textual forms are equal: same form, same name;
distinct forms, distinct names. -/
theorem C3_literal_dedup {Val₁ Ty₁ Val₂ Ty₂ : Type}
    (strOf₁ : Val₁ → String) (strOf₂ : Val₂ → String)
    (g g₂ : RegistryState)
    (self₁ : WeldNode Val₁ Ty₁) (self₂ : WeldNode Val₂ Ty₂)
    (v₁ : Val₁) (v₂ : Val₂) (tys₁ : Option Ty₁) (tys₂ : Option Ty₂)
    (ov₁ ov₂ : Bool)
    (hg : RegEvolves registryStart g)
    (h₂ : RegEvolves (update_literal strOf₁ g self₁ v₁ tys₁ ov₁).globals g₂) :
    ((update_literal strOf₁ g self₁ v₁ tys₁ ov₁).name
      = (update_literal strOf₂ g₂ self₂ v₂ tys₂ ov₂).name)
      ↔ strOf₁ v₁ = strOf₂ v₂ := by
  have hglobals : (update_literal strOf₁ g self₁ v₁ tys₁ ov₁).globals
      = (internGlobals g (strOf₁ v₁)).2 := rfl
  have hname₁ : (update_literal strOf₁ g self₁ v₁ tys₁ ov₁).name
      = (internGlobals g (strOf₁ v₁)).1 := rfl
  have hname₂ : (update_literal strOf₂ g₂ self₂ v₂ tys₂ ov₂).name
      = (internGlobals g₂ (strOf₂ v₂)).1 := rfl
  rw [hname₁, hname₂]
  exact intern_names_iff g g₂ (strOf₁ v₁) (strOf₂ v₂) hg (hglobals ▸ h₂)

/-- Witness for C3: registering `5`, then `7`, then `5` again from the
start state — the first and third registrations agree iff the canonical
forms agree (they do). -/
theorem C3_literal_dedup_witness :
    ((update_literal Nat.repr registryStart exW2 (5 : Nat) none true).name
      = (update_literal Nat.repr
          (internGlobals
            (update_literal Nat.repr registryStart exW2 (5 : Nat) none true).globals
            "7").2
          exW1 (5 : Nat) none true).name)
      ↔ Nat.repr (5 : Nat) = Nat.repr (5 : Nat) :=
  C3_literal_dedup Nat.repr Nat.repr registryStart _ exW2 exW1
    (5 : Nat) (5 : Nat) none none true true
    (RegEvolves.refl registryStart)
    (RegEvolves.step "7" (RegEvolves.refl _))

/-- C10: `update` on a plain literal with a non-None `tys` and the default
`override=True` leaves the node's `argtypes` map unchanged (the explicit
type is silently discarded); an `argtypes` entry is recorded exactly when
`tys` is not None and `override=False`. -/
theorem C10_argtypes_effect {Val Ty : Type} (strOf : Val → String)
    (g : RegistryState) (self : WeldNode Val Ty) (value : Val) :
    (∀ t : Ty, ((update_literal strOf g self value (some t) true).self).argtypes
        = self.argtypes) ∧
    (∀ (tys : Option Ty) (ov : Bool),
      ((update_literal strOf g self value tys ov).self).argtypes
        = match tys, ov with
          | some t, false =>
              assocSet self.argtypes (internGlobals g (strOf value)).1 t
          | some _, true => self.argtypes
          | none, _ => self.argtypes) := by
  constructor
  · intro t
    unfold update_literal
    simp [argtypes_setContext]
  · intro tys ov
    unfold update_literal
    cases tys with
    | none => simp [argtypes_setContext]
    | some t =>
      cases ov with
      | true => simp [argtypes_setContext]
      | false => simp [argtypes_setArgtypes, argtypes_setContext]

end Baloo
